import Mathlib

/-!
Verification of the Deis controller core (src/controller/api/models.py and
src/controller/scheduler/coreos.py) against its natural-language specification.

The definitions below are a shallow embedding of the Python source:
the Container lifecycle state machine, the scaling reconciler, the release
versioning and summary engine, the job-identity grammar with the scheduler's
MATCH regular expression, and the keyword-argument surface of the fleet
backend's create operation.
-/

set_option maxHeartbeats 1000000

namespace Deis

/-- Lifecycle states of a Container (models.py lines 244-255). -/
inductive CState
| initialized
| created
| up
| down
| destroyed
deriving DecidableEq, Repr

/-- The six FSM transitions declared on Container (models.py lines 302-365). -/
inductive TransKind
| create
| start
| deploy
| stop
| destroy
| run
deriving DecidableEq, Repr

/-- Remote Scheduler Backend operations a transition body may invoke. -/
inductive SchedOp
| createOp
| startOp
| stopOp
| destroyOp
| runOp
deriving DecidableEq, Repr

/-- Allowed source states of each transition, copied from the transition
decorators in models.py (create 303, start 314-317, deploy 321-325,
stop 346-347, destroy 351-354, run 359-361). -/
def sources : TransKind → List CState
| .create => [.initialized]
| .start => [.created, .up, .down]
| .deploy => [.initialized, .created, .up, .down]
| .stop => [.up]
| .destroy => [.initialized, .created, .up, .down]
| .run => [.initialized, .created, .destroyed]

/-- Success target state of each transition, from the same decorators. -/
def successTarget : TransKind → CState
| .create => .created
| .start => .up
| .deploy => .up
| .stop => .down
| .destroy => .destroyed
| .run => .destroyed

/-- Failure target declared by the crashed keyword of the decorators:
start and deploy declare crashed=DOWN, the others declare none. -/
def failureTarget : TransKind → Option CState
| .start => some CState.down
| .deploy => some CState.down
| _ => none

/-- Scheduler Backend calls issued by each transition body
(create 308-312, start 319, deploy 337-344, stop 349, destroy 357, run 364). -/
def remoteCalls : TransKind → List SchedOp
| .create => [.createOp]
| .start => [.startOp]
| .deploy => [.createOp, .startOp, .destroyOp]
| .stop => [.stopOp]
| .destroy => [.destroyOp]
| .run => [.runOp]

/-- Errors a transition attempt can surface. -/
inductive TransError
| invalidTransition
| remoteFailure
deriving DecidableEq, Repr

/-- Outcome of one transition attempt: the durable state afterwards, the
error surfaced (if any), and the backend calls issued. -/
structure StepResult where
  newState : CState
  err : Option TransError
  calls : List SchedOp
deriving DecidableEq, Repr

/-- One attempt of an FSM transition. The guard (membership of the current
state in the allowed source set) is evaluated first; only when it passes does
the body run and invoke the Scheduler Backend. On remote failure the state
moves to the declared crashed target when one exists, otherwise it is left
unchanged. -/
def fsmStep (t : TransKind) (s : CState) (remoteOk : Bool) : StepResult :=
  if (sources t).contains s then
    if remoteOk then ⟨successTarget t, none, remoteCalls t⟩
    else ⟨(failureTarget t).getD s, some TransError.remoteFailure, remoteCalls t⟩
  else ⟨s, some TransError.invalidTransition, []⟩

/-- Formal parameter names of FleetClient.create (coreos.py line 59):
create(self, name, image, command, template, use_announcer). -/
def fleetCreateParams : List String :=
  ["name", "image", "command", "template", "use_announcer"]

/-- Keyword arguments Container.create passes to the scheduler create call
(models.py lines 305-312): name, image, command, use_announcer plus the
splatted kwargs memory and cpu holding the Release Limit values. -/
def containerCreateCallKwargs : List String :=
  ["name", "image", "command", "use_announcer", "memory", "cpu"]

/-- A Python keyword call binds without TypeError exactly when every passed
keyword is among the callee's parameter names (the callee has no kwargs
catch-all). -/
def pyKwargsAccepted (params passed : List String) : Bool :=
  passed.all (fun k => params.contains k)

/-- One Container row as the reconciler sees it: process type, instance
number, lifecycle state and the bound release version (models.py 257-262). -/
structure Row where
  ctype : String
  num : Nat
  rstate : CState
  releaseVersion : Nat
deriving DecidableEq, Repr

/-- Application state: its Container rows in creation order (the model's
ordering is by the created timestamp) and its release versions in creation
order. -/
structure AppSt where
  rows : List Row
  releases : List Nat
deriving DecidableEq, Repr

/-- container_set.filter(type=t) ordered by creation. -/
def typeRows (rows : List Row) (t : String) : List Row :=
  rows.filter (fun r => r.ctype == t)

/-- The num values of one type, in creation order. -/
def numsOf (rows : List Row) (t : String) : List Nat :=
  (typeRows rows t).map (fun r => r.num)

/-- aggregate(Max(num)) over one type, with 0 when the set is empty
(models.py 187-188, and the or-[0] fallback of App.run line 229). -/
def maxNumOf (rows : List Row) (t : String) : Nat :=
  (numsOf rows t).foldr Nat.max 0

/-- release_set.latest(): the most recently created release version. -/
def latestVersion (st : AppSt) : Nat :=
  st.releases.getLast?.getD 0

/-- The FSM destroy transition applied to a row: only the state changes. -/
def destroyRow (r : Row) : Row :=
  ⟨r.ctype, r.num, CState.destroyed, r.releaseVersion⟩

/-- The rows created by the scale-up loop (models.py 198-206): cnt new rows
of type t numbered startNum, startNum+1, ..., bound to release ver, in state
initialized (the FSMField default, models.py 262). -/
def mkAdds (t : String) (ver startNum cnt : Nat) : List Row :=
  (List.range cnt).map (fun i => ⟨t, startNum + i, CState.initialized, ver⟩)

/-- Modelled from the spec: tasks.stop_containers is not under src/.
Per spec sections 4.1 and 4.3 the queued surplus containers are driven
through the FSM destroy transition (state destroyed); the spec never deletes
the records, and its num-reuse invariant requires that they persist.
markSurplus keeps the first keep rows of type t untouched and marks every
later row of type t destroyed, leaving other types alone. -/
def markSurplus (t : String) : Nat → List Row → List Row
| _, [] => []
| keep, r :: rs =>
  if r.ctype == t then
    match keep with
    | 0 => destroyRow r :: markSurplus t 0 rs
    | Nat.succ k => r :: markSurplus t k rs
  else r :: markSurplus t keep rs

/-- One iteration of the per-type scaling loop (models.py 184-206).
Returns the rows afterwards, the rows queued for creation, and the rows
queued for destruction. When requested is below the current count the
surplus is popped from the most recently created end; when above, new rows
are numbered from aggregate-max plus one. -/
def scaleType (ver : Nat) (rows : List Row) (t : String) (req : Nat) :
    List Row × List Row × List Row :=
  let cur := typeRows rows t
  if req < cur.length then
    (markSurplus t req rows, [], cur.drop req)
  else if cur.length < req then
    let adds := mkAdds t ver (maxNumOf rows t + 1) (req - cur.length)
    (rows ++ adds, adds, [])
  else (rows, [], [])

/-- The full per-type loop of App.scale over the requested structure,
threading the row set and accumulating the creation and destruction
queues. -/
def scaleLoop (ver : Nat) : List (String × Nat) → List Row → List Row × List Row × List Row
| [], rows => (rows, [], [])
| (t, req) :: rest, rows =>
  let p := scaleType ver rows t req
  let q := scaleLoop ver rest p.1
  (q.1, p.2.1 ++ q.2.1, p.2.2 ++ q.2.2)

/-- The validation loop of App.scale (models.py 173-178): every requested
type must be cmd or appear in the procfile of the latest build. -/
def validTypes (pf keys : List String) : Bool :=
  keys.all (fun t => t == "cmd" || pf.contains t)

/-- App.scale (models.py 167-215): validate every requested type first and
raise before touching anything, then run the per-type loop. The requested
structure is a list of (type, count) pairs (a Python dict in insertion
order). -/
def scale (pf : List String) (struct : List (String × Nat)) (st : AppSt) :
    Except String (AppSt × List Row × List Row) :=
  if validTypes pf (struct.map Prod.fst) then
    let q := scaleLoop (latestVersion st) struct st.rows
    Except.ok (⟨q.1, st.releases⟩, q.2.1, q.2.2)
  else Except.error "Container type does not exist in application"

/-- Invariant: within every (application, type) pair, the num values in
creation order form a strictly increasing sequence. -/
def increasingNums (rows : List Row) : Prop :=
  ∀ t, (numsOf rows t).Pairwise (· < ·)

/-- App.run (models.py 225-236): create one container of type admin with
num equal to the max existing admin num plus one (or-[0] fallback) bound to
the latest release. -/
def appRun (st : AppSt) : AppSt × Row :=
  let n := maxNumOf st.rows "admin" + 1
  let c : Row := ⟨"admin", n, CState.initialized, latestVersion st⟩
  (⟨st.rows ++ [c], st.releases⟩, c)

/-- App.create makes the first release at version 1 (models.py 138-139). -/
def appCreateVersions : List Nat := [1]

/-- Release.new computes the next version from the release it is invoked on
(models.py 502): new_version = self.version + 1. -/
def releaseNewVersion (selfVersion : Nat) : Nat := selfVersion + 1

/-- The application's release-version list after k invocations of
Release.new on the latest release, starting from App.create. -/
def versionsAfter : Nat → List Nat
| 0 => appCreateVersions
| Nat.succ k =>
  let rs := versionsAfter k
  rs ++ [releaseNewVersion (rs.getLast?.getD 0)]

/-- Build fields relevant to Release.save (models.py 399-406). -/
structure BuildV where
  image : String
  sha : String
  owner : String
deriving DecidableEq, Repr

/-- Config fields relevant to Release.save (models.py 424-426). -/
structure ConfigV where
  values : List (String × String)
  owner : String
deriving DecidableEq, Repr

/-- Limit fields relevant to Release.save (models.py 444-447). -/
structure LimitV where
  memory : List (String × String)
  cpu : List (String × String)
  owner : String
deriving DecidableEq, Repr

/-- Keys of a string-to-string mapping represented as an association list. -/
def dictKeys (d : List (String × String)) : List String := d.map Prod.fst

/-- Lookup in the association list. -/
def dictGet (d : List (String × String)) (k : String) : Option String :=
  (d.find? (fun p => p.1 == k)).map Prod.snd

/-- Modelled from the spec: utils.dict_diff is not under src/. Per spec
section 4.4 it splits two value maps into added, changed and deleted key
sets. Added: keys of the new map absent from the old. -/
def diffAdded (d1 d2 : List (String × String)) : List String :=
  (dictKeys d1).filter (fun k => !(dictKeys d2).contains k)

/-- Modelled from the spec: keys present in both maps whose values differ. -/
def diffChanged (d1 d2 : List (String × String)) : List String :=
  (dictKeys d1).filter (fun k => (dictKeys d2).contains k && dictGet d1 k != dictGet d2 k)

/-- Modelled from the spec: keys of the old map absent from the new. -/
def diffDeleted (d1 d2 : List (String × String)) : List String :=
  (dictKeys d2).filter (fun k => !(dictKeys d1).contains k)

/-- The added/changed/deleted clause rendering of Release.save
(models.py 566-571): prefix plus comma-joined keys, empty when no keys. -/
def joinClause (pre : String) (ks : List String) : String :=
  if ks.isEmpty then "" else pre ++ String.intercalate ", " ks

/-- Join the nonempty clauses with a comma (models.py 572). -/
def joinChanges (parts : List String) : String :=
  String.intercalate ", " (parts.filter (fun s => !(s == "")))

/-- The diff-rendering branch body of Release.save (models.py 561-576 and
578-593): render the three clauses and, when any text came out, prefix the
acting owner. -/
def diffSummary (who pre1 pre2 pre3 : String) (d1 d2 : List (String × String)) : String :=
  let added := joinClause pre1 (diffAdded d1 d2)
  let changed := joinClause pre2 (diffChanged d1 d2)
  let deleted := joinClause pre3 (diffDeleted d1 d2)
  let changes := joinChanges [added, changed, deleted]
  if changes = "" then "" else who ++ " " ++ changes

/-- Release.save summary generation (models.py 544-599). The caller-supplied
summary wins when nonempty; otherwise the branch chain runs: version 1,
build changed, config changed, limit changed (the limit branch attributes
the change to the config owner, as line 593 does); when no branch produced
text a final fallback applies. -/
def releaseSummary (callerSummary : String) (version : Nat) (owner appOwner : String)
    (build : BuildV) (config : ConfigV) (limit : LimitV)
    (prev : Option (BuildV × ConfigV × LimitV)) : String :=
  if callerSummary = "" then
    let oldBuild := prev.map Prod.fst
    let oldConfig := prev.map (fun p => p.2.1)
    let oldLimit := prev.map (fun p => p.2.2)
    let s :=
      if version = 1 then appOwner ++ " created initial release"
      else if some build ≠ oldBuild then
        (if build.sha = "" then build.owner ++ " deployed " ++ build.image
         else build.owner ++ " deployed " ++ (build.sha.take 7))
      else if some config ≠ oldConfig then
        diffSummary config.owner "added " "changed " "deleted " config.values
          ((oldConfig.map ConfigV.values).getD [])
      else if some limit ≠ oldLimit then
        diffSummary config.owner "added limit for " "changed limit for "
          "deleted limit for " limit.memory ((oldLimit.map LimitV.memory).getD [])
      else ""
    if s = "" then
      (if version = 1 then owner ++ " created the initial release"
       else owner ++ " changed nothing")
    else s
  else callerSummary

/-- Character class of the app group of MATCH (coreos.py line 14). -/
def isAppChar (c : Char) : Bool :=
  (('a' ≤ c) && (c ≤ 'z')) || (('0' ≤ c) && (c ≤ '9')) || (c == '-')

/-- Character class of the c_type group of MATCH. -/
def isLowChar (c : Char) : Bool := ('a' ≤ c) && (c ≤ 'z')

/-- Character class of the version and c_num digit runs of MATCH. -/
def isDigChar (c : Char) : Bool := ('0' ≤ c) && (c ≤ '9')

/-- The named captures of the MATCH regular expression. -/
structure JobMatch where
  app : List Char
  version : Option (List Char)
  c_type : Option (List Char)
  c_num : List Char
deriving DecidableEq, Repr

/-- First successful alternative, in backtracking order. -/
def firstSome {α : Type} : List (Option α) → Option α
| [] => none
| o :: t =>
  match o with
  | some a => some a
  | none => firstSome t

/-- Candidate splits of a greedy one-or-more character-class match, longest
first, exactly the order a backtracking engine explores. -/
def plusSplits (cls : Char → Bool) (s : List Char) : List (List Char × List Char) :=
  let r := (s.takeWhile cls).length
  (List.range r).map (fun i => (s.take (r - i), s.drop (r - i)))

/-- Final stage of MATCH: the c_num group, a greedy digit run at the end of
the pattern; trailing input is permitted since re.match does not anchor. -/
def matchNum (app : List Char) (ver ty : Option (List Char)) (s : List Char) :
    Option JobMatch :=
  let r := s.takeWhile isDigChar
  if r.isEmpty then none else some ⟨app, ver, ty, r⟩

/-- The unescaped dot of MATCH before c_num: consumes one arbitrary
character. -/
def matchAnyDot (app : List Char) (ver ty : Option (List Char)) (s : List Char) :
    Option JobMatch :=
  match s with
  | [] => none
  | _ :: rest => matchNum app ver ty rest

/-- The optional c_type group of MATCH: a greedy lowercase run tried longest
first, then the empty alternative. -/
def matchType (app : List Char) (ver : Option (List Char)) (s : List Char) :
    Option JobMatch :=
  firstSome
    (((plusSplits isLowChar s).map (fun p => matchAnyDot app ver (some p.1) p.2)) ++
      [matchAnyDot app ver none s])

/-- The optional escaped dot of MATCH before c_type: consume it when present,
falling back to not consuming. -/
def matchDot (app : List Char) (ver : Option (List Char)) (s : List Char) :
    Option JobMatch :=
  match s with
  | [] => matchType app ver []
  | c :: rest =>
    if c = '.' then firstSome [matchType app ver rest, matchType app ver (c :: rest)]
    else matchType app ver (c :: rest)

/-- Body of the optional version group of MATCH: a v followed by a greedy
digit run. -/
def matchVerBody (app : List Char) (s : List Char) : Option JobMatch :=
  match s with
  | [] => none
  | c :: rest =>
    if c = 'v' then
      firstSome ((plusSplits isDigChar rest).map
        (fun p => matchDot app (some (c :: p.1)) p.2))
    else none

/-- The optional version group: try its body first, then the empty
alternative. -/
def matchVer (app : List Char) (s : List Char) : Option JobMatch :=
  firstSome [matchVerBody app s, matchDot app none s]

/-- The optional underscore of MATCH after the app group. -/
def matchUnderscore (app : List Char) (s : List Char) : Option JobMatch :=
  match s with
  | [] => matchVer app []
  | c :: rest =>
    if c = '_' then firstSome [matchVer app rest, matchVer app (c :: rest)]
    else matchVer app (c :: rest)

/-- The leading app group of MATCH: a greedy run over its class, longest
first. -/
def matchApp (s : List Char) : Option JobMatch :=
  firstSome ((plusSplits isAppChar s).map (fun p => matchUnderscore p.1 p.2))

/-- re.match(MATCH, s): the scheduler's name parser (coreos.py line 14). -/
def reMatchJob (s : String) : Option JobMatch := matchApp s.data

/-- Container._get_job_id (models.py 275-281): the job identity string. -/
def getJobId (app : String) (version : Nat) (ctype : String) (num : Nat) : String :=
  app ++ "_" ++ ("v" ++ toString version) ++ "." ++ ctype ++ "." ++ toString num

/-- C1: a transition invoked from a state outside its allowed source set
fails with InvalidTransition, leaves the state unchanged and issues no
Scheduler Backend call. -/
theorem transition_guard_blocks_remote (t : TransKind) (s : CState) (remoteOk : Bool)
    (h : (sources t).contains s = false) :
    fsmStep t s remoteOk = ⟨s, some TransError.invalidTransition, []⟩ := by
  unfold fsmStep
  rw [h]
  simp

/-- Witness for C1: start attempted on a destroyed Container fails with
InvalidTransition and issues no backend call. -/
theorem transition_guard_blocks_remote_w :
    fsmStep TransKind.start CState.destroyed true =
      ⟨CState.destroyed, some TransError.invalidTransition, []⟩ :=
  transition_guard_blocks_remote TransKind.start CState.destroyed true (by decide)

/-- C2 (amended): on remote failure the state is never advanced to the
transition's success target; create, stop and destroy leave it unchanged,
while start and deploy move it to the declared crashed target down. -/
theorem remote_failure_never_advances (t : TransKind) (s : CState)
    (hrun : t ≠ TransKind.run) (hs : (sources t).contains s = true) :
    (fsmStep t s false).err = some TransError.remoteFailure ∧
    (fsmStep t s false).newState ≠ successTarget t ∧
    ((t = TransKind.create ∨ t = TransKind.stop ∨ t = TransKind.destroy) →
      (fsmStep t s false).newState = s) ∧
    ((t = TransKind.start ∨ t = TransKind.deploy) →
      (fsmStep t s false).newState = CState.down) := by
  cases t <;> cases s <;> revert hrun hs <;> decide

/-- Witness for C2 (amended): a failing remote create from initialized
surfaces remoteFailure and leaves the state at initialized. -/
theorem remote_failure_never_advances_w :
    (fsmStep TransKind.create CState.initialized false).err =
      some TransError.remoteFailure ∧
    (fsmStep TransKind.create CState.initialized false).newState =
      CState.initialized := by
  have h := remote_failure_never_advances TransKind.create CState.initialized
    (by decide) (by decide)
  exact ⟨h.1, h.2.2.1 (Or.inl rfl)⟩

/-- Counterexample for C2 as stated: a failing remote start on a Container
in state created does not leave the durable state unchanged; the crashed
target moves it to down. -/
theorem remote_failure_changes_state_cex :
    fsmStep TransKind.start CState.created false =
      ⟨CState.down, some TransError.remoteFailure, [SchedOp.startOp]⟩ ∧
    CState.down ≠ CState.created := by
  decide

/-- C6: Container.create does pass the Release Limit memory and cpu values
as keyword arguments, but FleetClient.create accepts no such parameters, so
the call cannot bind (Python TypeError) and the backend never applies the
limits. -/
theorem fleet_create_rejects_limits :
    containerCreateCallKwargs.contains "memory" = true ∧
    containerCreateCallKwargs.contains "cpu" = true ∧
    pyKwargsAccepted fleetCreateParams containerCreateCallKwargs = false := by
  decide

/-- Appending the next number to a closed interval of naturals. -/
theorem range'_snoc : ∀ (n s : Nat), List.range' s (n + 1) = List.range' s n ++ [s + n] := by
  intro n
  induction n with
  | zero => intro s; rfl
  | succ m ih =>
    intro s
    have h1 : List.range' s (m + 2) = s :: List.range' (s + 1) (m + 1) := rfl
    have h2 : List.range' s (m + 1) = s :: List.range' (s + 1) m := rfl
    rw [h1, ih (s + 1), h2]
    have h3 : s + 1 + m = s + (m + 1) := by omega
    simp [List.cons_append, h3]

/-- The release-version list after k news is the interval 1..k+1. -/
theorem versionsAfter_eq_range : ∀ k, versionsAfter k = List.range' 1 (k + 1) := by
  intro k
  induction k with
  | zero => rfl
  | succ m ih =>
    show versionsAfter m ++ [releaseNewVersion ((versionsAfter m).getLast?.getD 0)] = _
    have hlast : (versionsAfter m).getLast? = some (1 + m) := by
      rw [ih, range'_snoc]
      exact List.getLast?_concat _
    rw [hlast, ih, range'_snoc (m + 1) 1]
    rfl

/-- C5: Release.new always assigns latest version plus one, and the release
versions of an application form exactly the gapless duplicate-free sequence
1, 2, ..., k+1 after k news. -/
theorem release_versions_sequential (k : Nat) :
    versionsAfter (k + 1) =
      versionsAfter k ++ [releaseNewVersion ((versionsAfter k).getLast?.getD 0)] ∧
    versionsAfter k = List.range' 1 (k + 1) ∧
    (versionsAfter k).Nodup := by
  refine ⟨rfl, versionsAfter_eq_range k, ?_⟩
  rw [versionsAfter_eq_range k]
  exact List.nodup_range' 1 (k + 1)

/-- C8 (amended): the auto-generated summary of a first release with no
caller-supplied summary is the application owner followed by the words
created initial release (without the article). -/
theorem initial_release_summary (owner appOwner : String) (build : BuildV)
    (config : ConfigV) (limit : LimitV) (prev : Option (BuildV × ConfigV × LimitV)) :
    releaseSummary "" 1 owner appOwner build config limit prev =
      appOwner ++ " created initial release" := by
  have hne : appOwner ++ " created initial release" ≠ "" := by
    intro h
    have h2 := congrArg String.length h
    rw [String.length_append] at h2
    have h3 : (" created initial release" : String).length = 24 := rfl
    have h4 : ("" : String).length = 0 := rfl
    rw [h3, h4] at h2
    omega
  have key : releaseSummary "" 1 owner appOwner build config limit prev =
      if (appOwner ++ " created initial release") = "" then
        owner ++ " created the initial release"
      else appOwner ++ " created initial release" := rfl
  rw [key, if_neg hne]

/-- Counterexample for C8 as stated: the concrete first-release summary is
not the spec's phrase with the definite article. -/
theorem initial_release_summary_cex :
    releaseSummary "" 1 "alice" "alice" ⟨"img", "", "alice"⟩ ⟨[], "alice"⟩
        ⟨[], [], "alice"⟩ none = "alice created initial release" ∧
    releaseSummary "" 1 "alice" "alice" ⟨"img", "", "alice"⟩ ⟨[], "alice"⟩
        ⟨[], [], "alice"⟩ none ≠ "alice created the initial release" := by
  decide

/-- C10: App.run creates a Container of type admin (never the reserved type
cmd) whose num is the maximum existing admin num plus one (one when no admin
Container exists), bound to the latest release. -/
theorem app_run_admin_container (st : AppSt) :
    (appRun st).2.ctype = "admin" ∧
    (appRun st).2.ctype ≠ "cmd" ∧
    (appRun st).2.num = maxNumOf st.rows "admin" + 1 ∧
    (typeRows st.rows "admin" = [] → (appRun st).2.num = 1) ∧
    (appRun st).2.releaseVersion = latestVersion st := by
  refine ⟨rfl, ?_, rfl, ?_, rfl⟩
  · show ("admin" : String) ≠ "cmd"
    decide
  · intro h
    show maxNumOf st.rows "admin" + 1 = 1
    unfold maxNumOf numsOf
    rw [h]
    rfl

/-- Witness for C10 at the empty application state. -/
theorem app_run_admin_container_w :
    (appRun ⟨[], [1]⟩).2.num = 1 ∧ (appRun ⟨[], [1]⟩).2.ctype = "admin" := by
  have h := app_run_admin_container ⟨[], [1]⟩
  exact ⟨h.2.2.2.1 rfl, h.1⟩

/-- C7: a scale request naming a type other than cmd that the procfile does
not declare fails with the validation error before any Container is created
or destroyed, while a request whose types are all cmd or declared passes
validation. -/
theorem scale_rejects_undeclared_type :
    (∀ pf struct st t req, (t, req) ∈ struct → t ≠ "cmd" → pf.contains t = false →
      scale pf struct st = Except.error "Container type does not exist in application") ∧
    (∀ pf struct st, (∀ t, t ∈ struct.map Prod.fst → t = "cmd" ∨ pf.contains t = true) →
      ∃ out, scale pf struct st = Except.ok out) := by
  constructor
  · intro pf struct st t req hmem hcmd hpf
    have hv : validTypes pf (struct.map Prod.fst) = false := by
      unfold validTypes
      rw [List.all_eq_false]
      refine ⟨t, List.mem_map_of_mem _ hmem, ?_⟩
      intro hor
      rw [Bool.or_eq_true] at hor
      rcases hor with h | h
      · exact hcmd (eq_of_beq h)
      · rw [hpf] at h
        exact absurd h (by decide)
    unfold scale
    rw [hv]
    rfl
  · intro pf struct st hall
    have hv : validTypes pf (struct.map Prod.fst) = true := by
      unfold validTypes
      rw [List.all_eq_true]
      intro t ht
      rw [Bool.or_eq_true]
      rcases hall t ht with h | h
      · left
        exact beq_of_eq h
      · right
        exact h
    refine ⟨(⟨(scaleLoop (latestVersion st) struct st.rows).1, st.releases⟩,
      (scaleLoop (latestVersion st) struct st.rows).2.1,
      (scaleLoop (latestVersion st) struct st.rows).2.2), ?_⟩
    unfold scale
    rw [hv]
    rfl

/-- Witness for C7: requesting type worker with only web declared fails. -/
theorem scale_rejects_undeclared_type_w :
    scale ["web"] [("worker", 1)] ⟨[], [1]⟩ =
      Except.error "Container type does not exist in application" :=
  scale_rejects_undeclared_type.1 ["web"] [("worker", 1)] ⟨[], [1]⟩ "worker" 1
    (by decide) (by decide) (by decide)

/-- Prepending a row to a type filter. -/
theorem typeRows_cons (r : Row) (rs : List Row) (t : String) :
    typeRows (r :: rs) t =
      if (r.ctype == t) = true then r :: typeRows rs t else typeRows rs t := by
  unfold typeRows
  rw [List.filter_cons]

/-- Type filters distribute over append. -/
theorem typeRows_append (l1 l2 : List Row) (t : String) :
    typeRows (l1 ++ l2) t = typeRows l1 t ++ typeRows l2 t :=
  List.filter_append l1 l2

/-- Rows in a type filter carry that type. -/
theorem ctype_of_mem_typeRows {rows : List Row} {t : String} {r : Row}
    (h : r ∈ typeRows rows t) : r.ctype = t := by
  have h2 := (List.mem_filter.mp h).2
  exact eq_of_beq h2

/-- A list whose rows all carry type t filters to itself. -/
theorem typeRows_eq_self {l : List Row} {t : String} (h : ∀ r ∈ l, r.ctype = t) :
    typeRows l t = l := by
  unfold typeRows
  rw [List.filter_eq_self]
  intro r hr
  rw [h r hr]
  exact beq_self_eq_true t

/-- A list whose rows all carry type t filters to nothing at another type. -/
theorem typeRows_eq_nil {l : List Row} {t t2 : String} (hne : t2 ≠ t)
    (h : ∀ r ∈ l, r.ctype = t) : typeRows l t2 = [] := by
  unfold typeRows
  rw [List.filter_eq_nil_iff]
  intro r hr
  rw [h r hr]
  exact fun hb => hne (eq_of_beq hb).symm

/-- Prepending a row to the num projection. -/
theorem numsOf_cons (r : Row) (rs : List Row) (t : String) :
    numsOf (r :: rs) t =
      if (r.ctype == t) = true then r.num :: numsOf rs t else numsOf rs t := by
  unfold numsOf
  rw [typeRows_cons]
  by_cases hc : (r.ctype == t) = true
  · rw [if_pos hc, if_pos hc]
    rfl
  · rw [if_neg hc, if_neg hc]

/-- Num projections distribute over append. -/
theorem numsOf_append (l1 l2 : List Row) (t : String) :
    numsOf (l1 ++ l2) t = numsOf l1 t ++ numsOf l2 t := by
  unfold numsOf
  rw [typeRows_append, List.map_append]

/-- Marking surplus rows destroyed changes no type's num projection: the
records persist with their numbers. -/
theorem numsOf_markSurplus (t t2 : String) :
    ∀ (rows : List Row) (k : Nat), numsOf (markSurplus t k rows) t2 = numsOf rows t2 := by
  intro rows
  induction rows with
  | nil => intro k; rfl
  | cons r rs ih =>
    intro k
    by_cases hc : (r.ctype == t) = true
    · cases k with
      | zero =>
        have hm : markSurplus t 0 (r :: rs) = destroyRow r :: markSurplus t 0 rs := by
          simp [markSurplus, hc]
        rw [hm, numsOf_cons, numsOf_cons, ih 0]
        rfl
      | succ k2 =>
        have hm : markSurplus t (k2 + 1) (r :: rs) = r :: markSurplus t k2 rs := by
          simp [markSurplus, hc]
        rw [hm, numsOf_cons, numsOf_cons, ih k2]
    · have hm : markSurplus t k (r :: rs) = r :: markSurplus t k rs := by
        simp [markSurplus, hc]
      rw [hm, numsOf_cons, numsOf_cons, ih k]

/-- Marking one type's surplus leaves every other type's rows untouched. -/
theorem typeRows_markSurplus_other {t t2 : String} (hne : t2 ≠ t) :
    ∀ (rows : List Row) (k : Nat), typeRows (markSurplus t k rows) t2 = typeRows rows t2 := by
  intro rows
  induction rows with
  | nil => intro k; rfl
  | cons r rs ih =>
    intro k
    by_cases hc : (r.ctype == t) = true
    · have hc2 : (r.ctype == t2) = false := by
        rw [eq_of_beq hc]
        exact beq_eq_false_iff_ne.mpr (fun e => hne e.symm)
      cases k with
      | zero =>
        have hm : markSurplus t 0 (r :: rs) = destroyRow r :: markSurplus t 0 rs := by
          simp [markSurplus, hc]
        rw [hm, typeRows_cons, typeRows_cons]
        have hd : ((destroyRow r).ctype == t2) = false := hc2
        rw [hd, hc2, if_neg (by simp), if_neg (by simp)]
        exact ih 0
      | succ k2 =>
        have hm : markSurplus t (k2 + 1) (r :: rs) = r :: markSurplus t k2 rs := by
          simp [markSurplus, hc]
        rw [hm, typeRows_cons, typeRows_cons, ih k2]
    · have hm : markSurplus t k (r :: rs) = r :: markSurplus t k rs := by
        simp [markSurplus, hc]
      rw [hm, typeRows_cons, typeRows_cons, ih k]

/-- Marking a type's surplus keeps its first k rows and destroys the rest:
exactly the most recently created surplus is torn down. -/
theorem typeRows_markSurplus_self (t : String) :
    ∀ (rows : List Row) (k : Nat),
      typeRows (markSurplus t k rows) t =
        (typeRows rows t).take k ++ ((typeRows rows t).drop k).map destroyRow := by
  intro rows
  induction rows with
  | nil => intro k; simp [typeRows, markSurplus]
  | cons r rs ih =>
    intro k
    by_cases hc : (r.ctype == t) = true
    · have hd : ((destroyRow r).ctype == t) = true := hc
      cases k with
      | zero =>
        have hm : markSurplus t 0 (r :: rs) = destroyRow r :: markSurplus t 0 rs := by
          simp [markSurplus, hc]
        rw [hm, typeRows_cons, typeRows_cons, if_pos hd, if_pos hc, ih 0]
        simp
      | succ k2 =>
        have hm : markSurplus t (k2 + 1) (r :: rs) = r :: markSurplus t k2 rs := by
          simp [markSurplus, hc]
        rw [hm, typeRows_cons, typeRows_cons, if_pos hc, if_pos hc, ih k2]
        simp
    · have hm : markSurplus t k (r :: rs) = r :: markSurplus t k rs := by
        simp [markSurplus, hc]
      rw [hm, typeRows_cons, typeRows_cons, if_neg hc, if_neg hc, ih k]

/-- Every member is bounded by the fold of Nat.max. -/
theorem le_foldr_max {x : Nat} : ∀ {l : List Nat}, x ∈ l → x ≤ l.foldr Nat.max 0 := by
  intro l
  induction l with
  | nil => intro h; cases h
  | cons a l2 ih =>
    intro h
    rcases List.mem_cons.mp h with h | h
    · subst h
      exact Nat.le_max_left _ _
    · exact Nat.le_trans (ih h) (Nat.le_max_right _ _)

/-- Existing nums of a type never exceed that type's aggregate maximum. -/
theorem le_maxNumOf {rows : List Row} {t : String} {x : Nat}
    (h : x ∈ numsOf rows t) : x ≤ maxNumOf rows t :=
  le_foldr_max h

/-- The nums assigned by the creation loop form the consecutive interval
starting at its start number. -/
theorem mkAdds_map_num (t : String) (ver s c : Nat) :
    (mkAdds t ver s c).map (fun r => r.num) = List.range' s c := by
  unfold mkAdds
  rw [List.map_map, List.range'_eq_map_range]
  rfl

/-- Every row the creation loop makes carries the requested type. -/
theorem mkAdds_ctype {t : String} {ver s c : Nat} :
    ∀ r ∈ mkAdds t ver s c, r.ctype = t := by
  intro r hr
  unfold mkAdds at hr
  rw [List.mem_map] at hr
  obtain ⟨i, _, he⟩ := hr
  rw [← he]

/-- Num projection of a creation batch at its own type. -/
theorem numsOf_mkAdds_self (t : String) (ver s c : Nat) :
    numsOf (mkAdds t ver s c) t = List.range' s c := by
  unfold numsOf
  rw [typeRows_eq_self mkAdds_ctype, mkAdds_map_num]

/-- The three branch equations of the per-type scaling step. -/
theorem scaleType_eq_lt {ver : Nat} {rows : List Row} {t : String} {req : Nat}
    (h : req < (typeRows rows t).length) :
    scaleType ver rows t req = (markSurplus t req rows, [], (typeRows rows t).drop req) := by
  simp only [scaleType]
  rw [if_pos h]

/-- Scale-up branch equation. -/
theorem scaleType_eq_gt {ver : Nat} {rows : List Row} {t : String} {req : Nat}
    (h : (typeRows rows t).length < req) :
    scaleType ver rows t req =
      (rows ++ mkAdds t ver (maxNumOf rows t + 1) (req - (typeRows rows t).length),
       mkAdds t ver (maxNumOf rows t + 1) (req - (typeRows rows t).length), []) := by
  simp only [scaleType]
  rw [if_neg (by omega), if_pos h]

/-- No-change branch equation. -/
theorem scaleType_eq_same {ver : Nat} {rows : List Row} {t : String} {req : Nat}
    (h : (typeRows rows t).length = req) :
    scaleType ver rows t req = (rows, [], []) := by
  simp only [scaleType]
  rw [if_neg (by omega), if_neg (by omega)]

/-- Master facts about one per-type step: nums only grow by the created
batch, created and removed rows carry the processed type, and every other
type's rows are untouched. -/
theorem scaleType_spec (ver : Nat) (rows : List Row) (t : String) (req : Nat) :
    (∀ t2, numsOf (scaleType ver rows t req).1 t2 =
      numsOf rows t2 ++ numsOf (scaleType ver rows t req).2.1 t2) ∧
    (∀ r ∈ (scaleType ver rows t req).2.1, r.ctype = t) ∧
    (∀ r ∈ (scaleType ver rows t req).2.2, r.ctype = t) ∧
    (∀ t2, t2 ≠ t → typeRows (scaleType ver rows t req).1 t2 = typeRows rows t2) := by
  rcases Nat.lt_trichotomy req (typeRows rows t).length with h | h | h
  · rw [scaleType_eq_lt h]
    refine ⟨?_, ?_, ?_, ?_⟩
    · intro t2
      show numsOf (markSurplus t req rows) t2 = numsOf rows t2 ++ numsOf [] t2
      rw [numsOf_markSurplus]
      rw [show numsOf ([] : List Row) t2 = [] from rfl, List.append_nil]
    · intro r hr
      cases hr
    · intro r hr
      exact ctype_of_mem_typeRows (List.mem_of_mem_drop hr)
    · intro t2 hne
      exact typeRows_markSurplus_other hne rows req
  · rw [scaleType_eq_same h.symm]
    refine ⟨?_, ?_, ?_, ?_⟩
    · intro t2
      show numsOf rows t2 = numsOf rows t2 ++ numsOf [] t2
      rw [show numsOf ([] : List Row) t2 = [] from rfl, List.append_nil]
    · intro r hr
      cases hr
    · intro r hr
      cases hr
    · intro t2 _
      rfl
  · rw [scaleType_eq_gt h]
    refine ⟨?_, ?_, ?_, ?_⟩
    · intro t2
      exact numsOf_append rows _ t2
    · exact mkAdds_ctype
    · intro r hr
      cases hr
    · intro t2 hne
      rw [typeRows_append, typeRows_eq_nil hne mkAdds_ctype, List.append_nil]

/-- Num projection of a creation batch at a different type is empty. -/
theorem numsOf_mkAdds_other {t t2 : String} (hne : t2 ≠ t) (ver s c : Nat) :
    numsOf (mkAdds t ver s c) t2 = [] := by
  unfold numsOf
  rw [typeRows_eq_nil hne mkAdds_ctype]
  rfl

/-- The per-type step's outputs for its own type depend only on that type's
rows, so processing other types first cannot change them. -/
theorem scaleType_t_congr (ver req : Nat) {rows1 rows0 : List Row} {t : String}
    (h : typeRows rows1 t = typeRows rows0 t) :
    (scaleType ver rows1 t req).2.1 = (scaleType ver rows0 t req).2.1 ∧
    (scaleType ver rows1 t req).2.2 = (scaleType ver rows0 t req).2.2 ∧
    typeRows (scaleType ver rows1 t req).1 t = typeRows (scaleType ver rows0 t req).1 t := by
  have hmax : maxNumOf rows1 t = maxNumOf rows0 t := by
    unfold maxNumOf numsOf
    rw [h]
  have hlen : (typeRows rows1 t).length = (typeRows rows0 t).length := by rw [h]
  rcases Nat.lt_trichotomy req (typeRows rows0 t).length with hc | hc | hc
  · have hc1 : req < (typeRows rows1 t).length := by omega
    rw [scaleType_eq_lt hc, scaleType_eq_lt hc1]
    refine ⟨rfl, by rw [h], ?_⟩
    rw [typeRows_markSurplus_self, typeRows_markSurplus_self, h]
  · have hc1 : (typeRows rows1 t).length = req := by omega
    rw [scaleType_eq_same hc.symm, scaleType_eq_same hc1]
    exact ⟨rfl, rfl, h⟩
  · have hc1 : (typeRows rows1 t).length < req := by omega
    rw [scaleType_eq_gt hc, scaleType_eq_gt hc1, hmax, hlen]
    refine ⟨rfl, rfl, ?_⟩
    rw [typeRows_append, typeRows_append, typeRows_eq_self mkAdds_ctype, h]

/-- Across the whole loop, each type's nums only grow by the created
batch. -/
theorem scaleLoop_nums (ver : Nat) :
    ∀ (struct : List (String × Nat)) (rows : List Row) (t2 : String),
      numsOf (scaleLoop ver struct rows).1 t2 =
        numsOf rows t2 ++ numsOf (scaleLoop ver struct rows).2.1 t2 := by
  intro struct
  induction struct with
  | nil =>
    intro rows t2
    show numsOf rows t2 = numsOf rows t2 ++ numsOf [] t2
    rw [show numsOf ([] : List Row) t2 = [] from rfl, List.append_nil]
  | cons p rest ih =>
    intro rows t2
    obtain ⟨t, req⟩ := p
    show numsOf (scaleLoop ver rest (scaleType ver rows t req).1).1 t2 =
      numsOf rows t2 ++
        numsOf ((scaleType ver rows t req).2.1 ++
          (scaleLoop ver rest (scaleType ver rows t req).1).2.1) t2
    rw [ih (scaleType ver rows t req).1 t2, (scaleType_spec ver rows t req).1 t2,
      numsOf_append, List.append_assoc]

/-- Types absent from the requested structure are left completely
untouched: no creation, no destruction, identical rows. -/
theorem scaleLoop_other (ver : Nat) :
    ∀ (struct : List (String × Nat)) (rows : List Row) (t : String),
      t ∉ struct.map Prod.fst →
      typeRows (scaleLoop ver struct rows).1 t = typeRows rows t ∧
      typeRows (scaleLoop ver struct rows).2.1 t = [] ∧
      typeRows (scaleLoop ver struct rows).2.2 t = [] := by
  intro struct
  induction struct with
  | nil =>
    intro rows t _
    exact ⟨rfl, rfl, rfl⟩
  | cons p rest ih =>
    intro rows t hnot
    obtain ⟨t1, req1⟩ := p
    have hne : t ≠ t1 := by
      intro e
      exact hnot (by rw [e]; exact List.mem_cons_self _ _)
    have hrest : t ∉ rest.map Prod.fst := fun h2 => hnot (List.mem_cons_of_mem _ h2)
    obtain ⟨ih1, ih2, ih3⟩ := ih (scaleType ver rows t1 req1).1 t hrest
    have hspec := scaleType_spec ver rows t1 req1
    refine ⟨?_, ?_, ?_⟩
    · show typeRows (scaleLoop ver rest (scaleType ver rows t1 req1).1).1 t = _
      rw [ih1, hspec.2.2.2 t hne]
    · show typeRows ((scaleType ver rows t1 req1).2.1 ++
        (scaleLoop ver rest (scaleType ver rows t1 req1).1).2.1) t = []
      rw [typeRows_append, typeRows_eq_nil hne hspec.2.1, ih2]
      rfl
    · show typeRows ((scaleType ver rows t1 req1).2.2 ++
        (scaleLoop ver rest (scaleType ver rows t1 req1).1).2.2) t = []
      rw [typeRows_append, typeRows_eq_nil hne hspec.2.2.1, ih3]
      rfl

/-- For a type present in a duplicate-free requested structure, the loop's
contribution for that type equals the per-type step computed on the original
rows. -/
theorem scaleLoop_mem (ver : Nat) :
    ∀ (struct : List (String × Nat)) (rows : List Row) (t : String) (req : Nat),
      (struct.map Prod.fst).Nodup → (t, req) ∈ struct →
      typeRows (scaleLoop ver struct rows).2.1 t = (scaleType ver rows t req).2.1 ∧
      typeRows (scaleLoop ver struct rows).2.2 t = (scaleType ver rows t req).2.2 ∧
      typeRows (scaleLoop ver struct rows).1 t = typeRows (scaleType ver rows t req).1 t := by
  intro struct
  induction struct with
  | nil =>
    intro rows t req _ hmem
    cases hmem
  | cons p rest ih =>
    intro rows t req hnd hmem
    obtain ⟨t1, req1⟩ := p
    have hnd2 : (t1 :: rest.map Prod.fst).Nodup := by simpa using hnd
    have hnd1 : t1 ∉ rest.map Prod.fst := (List.nodup_cons.mp hnd2).1
    have hndrest : (rest.map Prod.fst).Nodup := (List.nodup_cons.mp hnd2).2
    rcases List.mem_cons.mp hmem with hhead | htail
    · have ht : t = t1 := congrArg Prod.fst hhead
      have hreq : req = req1 := congrArg Prod.snd hhead
      subst ht
      subst hreq
      obtain ⟨ho1, ho2, ho3⟩ :=
        scaleLoop_other ver rest (scaleType ver rows t req).1 t hnd1
      have hspec := scaleType_spec ver rows t req
      refine ⟨?_, ?_, ?_⟩
      · show typeRows ((scaleType ver rows t req).2.1 ++
          (scaleLoop ver rest (scaleType ver rows t req).1).2.1) t = _
        rw [typeRows_append, typeRows_eq_self hspec.2.1, ho2, List.append_nil]
      · show typeRows ((scaleType ver rows t req).2.2 ++
          (scaleLoop ver rest (scaleType ver rows t req).1).2.2) t = _
        rw [typeRows_append, typeRows_eq_self hspec.2.2.1, ho3, List.append_nil]
      · show typeRows (scaleLoop ver rest (scaleType ver rows t req).1).1 t = _
        exact ho1
    · have htk : t ∈ rest.map Prod.fst := List.mem_map_of_mem Prod.fst htail
      have hne : t ≠ t1 := fun e => hnd1 (e ▸ htk)
      have hspec := scaleType_spec ver rows t1 req1
      have hTR : typeRows (scaleType ver rows t1 req1).1 t = typeRows rows t :=
        hspec.2.2.2 t hne
      obtain ⟨ihA, ihB, ihC⟩ := ih (scaleType ver rows t1 req1).1 t req hndrest htail
      obtain ⟨hcA, hcB, hcC⟩ := scaleType_t_congr ver req hTR
      refine ⟨?_, ?_, ?_⟩
      · show typeRows ((scaleType ver rows t1 req1).2.1 ++
          (scaleLoop ver rest (scaleType ver rows t1 req1).1).2.1) t = _
        rw [typeRows_append, typeRows_eq_nil hne hspec.2.1, List.nil_append, ihA, hcA]
      · show typeRows ((scaleType ver rows t1 req1).2.2 ++
          (scaleLoop ver rest (scaleType ver rows t1 req1).1).2.2) t = _
        rw [typeRows_append, typeRows_eq_nil hne hspec.2.2.1, List.nil_append, ihB, hcB]
      · show typeRows (scaleLoop ver rest (scaleType ver rows t1 req1).1).1 t = _
        rw [ihC, hcC]

/-- One per-type step preserves the strictly-increasing-nums invariant. -/
theorem increasing_scaleType (ver : Nat) (rows : List Row) (t : String) (req : Nat)
    (h : increasingNums rows) : increasingNums (scaleType ver rows t req).1 := by
  intro t2
  rcases Nat.lt_trichotomy req (typeRows rows t).length with hc | hc | hc
  · rw [scaleType_eq_lt hc]
    show (numsOf (markSurplus t req rows) t2).Pairwise (· < ·)
    rw [numsOf_markSurplus]
    exact h t2
  · rw [scaleType_eq_same hc.symm]
    exact h t2
  · rw [scaleType_eq_gt hc]
    show (numsOf (rows ++ mkAdds t ver (maxNumOf rows t + 1)
      (req - (typeRows rows t).length)) t2).Pairwise (· < ·)
    rw [numsOf_append]
    by_cases ht2 : t2 = t
    · subst ht2
      rw [numsOf_mkAdds_self, List.pairwise_append]
      refine ⟨h t2, List.pairwise_lt_range' _ _, ?_⟩
      intro a ha b hb
      have h1 : a ≤ maxNumOf rows t2 := le_maxNumOf ha
      have h2 := (List.mem_range'_1.mp hb).1
      omega
    · rw [numsOf_mkAdds_other ht2, List.append_nil]
      exact h t2

/-- The whole loop preserves the strictly-increasing-nums invariant. -/
theorem increasing_scaleLoop (ver : Nat) :
    ∀ (struct : List (String × Nat)) (rows : List Row),
      increasingNums rows → increasingNums (scaleLoop ver struct rows).1 := by
  intro struct
  induction struct with
  | nil =>
    intro rows h
    exact h
  | cons p rest ih =>
    intro rows h
    obtain ⟨t, req⟩ := p
    show increasingNums (scaleLoop ver rest (scaleType ver rows t req).1).1
    exact ih _ (increasing_scaleType ver rows t req h)

/-- Rows created by one per-type step carry nums strictly above every num
already present for their type. -/
theorem scaleType_fresh (ver : Nat) (rows : List Row) (t : String) (req : Nat) :
    ∀ r ∈ (scaleType ver rows t req).2.1, ∀ x ∈ numsOf rows r.ctype, x < r.num := by
  intro r hr x hx
  rcases Nat.lt_trichotomy req (typeRows rows t).length with hc | hc | hc
  · rw [scaleType_eq_lt hc] at hr
    cases hr
  · rw [scaleType_eq_same hc.symm] at hr
    cases hr
  · rw [scaleType_eq_gt hc] at hr
    have hct : r.ctype = t := mkAdds_ctype r hr
    unfold mkAdds at hr
    rw [List.mem_map] at hr
    obtain ⟨i, _, he⟩ := hr
    have hnum : r.num = maxNumOf rows t + 1 + i := by rw [← he]
    rw [hct] at hx
    have hle := le_maxNumOf hx
    omega

/-- Rows created anywhere in the loop carry nums strictly above every num of
their type that existed before the call: nums are never reused. -/
theorem scaleLoop_fresh (ver : Nat) :
    ∀ (struct : List (String × Nat)) (rows : List Row),
      ∀ r ∈ (scaleLoop ver struct rows).2.1, ∀ x ∈ numsOf rows r.ctype, x < r.num := by
  intro struct
  induction struct with
  | nil =>
    intro rows r hr
    cases hr
  | cons p rest ih =>
    intro rows r hr x hx
    obtain ⟨t, req⟩ := p
    have hr2 : r ∈ (scaleType ver rows t req).2.1 ++
        (scaleLoop ver rest (scaleType ver rows t req).1).2.1 := hr
    rcases List.mem_append.mp hr2 with h | h
    · exact scaleType_fresh ver rows t req r h x hx
    · have hx2 : x ∈ numsOf (scaleType ver rows t req).1 r.ctype := by
        rw [(scaleType_spec ver rows t req).1 r.ctype]
        exact List.mem_append_left _ hx
      exact ih (scaleType ver rows t req).1 r h x hx2

/-- A successful scale call is the loop run on the current rows with the
latest release version. -/
theorem scale_ok_inv {pf : List String} {struct : List (String × Nat)}
    {st st2 : AppSt} {adds rems : List Row}
    (hok : scale pf struct st = Except.ok (st2, adds, rems)) :
    st2.rows = (scaleLoop (latestVersion st) struct st.rows).1 ∧
    adds = (scaleLoop (latestVersion st) struct st.rows).2.1 ∧
    rems = (scaleLoop (latestVersion st) struct st.rows).2.2 := by
  unfold scale at hok
  by_cases hv : validTypes pf (struct.map Prod.fst) = true
  · rw [hv] at hok
    have h := Except.ok.inj hok
    refine ⟨?_, ?_, ?_⟩
    · exact (congrArg (fun x => x.1.rows) h).symm
    · exact (congrArg (fun x => x.2.1) h).symm
    · exact (congrArg (fun x => x.2.2) h).symm
  · have hv2 : validTypes pf (struct.map Prod.fst) = false := by
      cases hb : validTypes pf (struct.map Prod.fst)
      · rfl
      · exact absurd hb hv
    rw [hv2] at hok
    simp at hok

/-- C3 (spec-modelled destruction): every scale call numbers new Containers
from the per-type aggregate maximum plus one upward, strictly above every
num ever used for that type (destroyed rows included, since they persist),
preserving the strictly-increasing no-reuse invariant. -/
theorem scale_num_allocation {pf : List String} {struct : List (String × Nat)}
    {st st2 : AppSt} {adds rems : List Row}
    (hok : scale pf struct st = Except.ok (st2, adds, rems))
    (hinc : increasingNums st.rows) :
    increasingNums st2.rows ∧
    (∀ t, numsOf st2.rows t = numsOf st.rows t ++ numsOf adds t) ∧
    (∀ r ∈ adds, ∀ x ∈ numsOf st.rows r.ctype, x < r.num) ∧
    ((struct.map Prod.fst).Nodup → ∀ t req, (t, req) ∈ struct →
      (typeRows st.rows t).length < req →
      numsOf adds t =
        List.range' (maxNumOf st.rows t + 1) (req - (typeRows st.rows t).length)) := by
  obtain ⟨h1, h2, h3⟩ := scale_ok_inv hok
  refine ⟨?_, ?_, ?_, ?_⟩
  · rw [h1]
    exact increasing_scaleLoop _ struct st.rows hinc
  · intro t
    rw [h1, h2]
    exact scaleLoop_nums _ struct st.rows t
  · intro r hr x hx
    rw [h2] at hr
    exact scaleLoop_fresh _ struct st.rows r hr x hx
  · intro hnd t req hmem hlen
    rw [h2]
    have hm := scaleLoop_mem (latestVersion st) struct st.rows t req hnd hmem
    show numsOf (scaleLoop (latestVersion st) struct st.rows).2.1 t = _
    unfold numsOf
    rw [hm.1, scaleType_eq_gt hlen]
    exact mkAdds_map_num t _ _ _

/-- C4: when a requested count is below the current count, exactly the most
recently created surplus rows of that type are removed (the oldest survive
untouched), and types absent from the requested structure are neither
scaled up nor down. -/
theorem scale_down_removes_newest {pf : List String} {struct : List (String × Nat)}
    {st st2 : AppSt} {adds rems : List Row}
    (hok : scale pf struct st = Except.ok (st2, adds, rems))
    (hnd : (struct.map Prod.fst).Nodup) :
    (∀ t req, (t, req) ∈ struct → req < (typeRows st.rows t).length →
      typeRows rems t = (typeRows st.rows t).drop req ∧
      typeRows adds t = [] ∧
      typeRows st2.rows t = (typeRows st.rows t).take req ++
        ((typeRows st.rows t).drop req).map destroyRow) ∧
    (∀ t, t ∉ struct.map Prod.fst →
      typeRows st2.rows t = typeRows st.rows t ∧
      typeRows adds t = [] ∧ typeRows rems t = []) := by
  obtain ⟨h1, h2, h3⟩ := scale_ok_inv hok
  constructor
  · intro t req hmem hlen
    have hm := scaleLoop_mem (latestVersion st) struct st.rows t req hnd hmem
    refine ⟨?_, ?_, ?_⟩
    · rw [h3, hm.2.1, scaleType_eq_lt hlen]
    · rw [h2, hm.1, scaleType_eq_lt hlen]
    · rw [h1, hm.2.2, scaleType_eq_lt hlen]
      exact typeRows_markSurplus_self t st.rows req
  · intro t hnot
    obtain ⟨ho1, ho2, ho3⟩ := scaleLoop_other (latestVersion st) struct st.rows t hnot
    rw [h1, h2, h3]
    exact ⟨ho1, ho2, ho3⟩

/-- Witness for C3: scaling web from two rows (one already destroyed) to
three creates exactly web.3, never reusing the destroyed num 2. -/
theorem scale_num_allocation_w :
    scale ["web"] [("web", 3)]
        ⟨[⟨"web", 1, CState.up, 1⟩, ⟨"web", 2, CState.destroyed, 1⟩], [1]⟩ =
      Except.ok (⟨[⟨"web", 1, CState.up, 1⟩, ⟨"web", 2, CState.destroyed, 1⟩,
        ⟨"web", 3, CState.initialized, 1⟩], [1]⟩,
        [⟨"web", 3, CState.initialized, 1⟩], []) ∧
    numsOf [⟨"web", 3, CState.initialized, 1⟩] "web" = List.range' 3 1 := by
  have hok : scale ["web"] [("web", 3)]
      ⟨[⟨"web", 1, CState.up, 1⟩, ⟨"web", 2, CState.destroyed, 1⟩], [1]⟩ =
      Except.ok (⟨[⟨"web", 1, CState.up, 1⟩, ⟨"web", 2, CState.destroyed, 1⟩,
        ⟨"web", 3, CState.initialized, 1⟩], [1]⟩,
        [⟨"web", 3, CState.initialized, 1⟩], []) := by rfl
  have hinc : increasingNums
      [⟨"web", 1, CState.up, 1⟩, ⟨"web", 2, CState.destroyed, 1⟩] := by
    intro t
    by_cases h : t = "web"
    · subst h
      decide
    · have he : numsOf [(⟨"web", 1, CState.up, 1⟩ : Row),
          ⟨"web", 2, CState.destroyed, 1⟩] t = [] := by
        unfold numsOf
        rw [typeRows_eq_nil h (by decide)]
        rfl
      rw [he]
      exact List.Pairwise.nil
  have h := scale_num_allocation hok hinc
  refine ⟨hok, ?_⟩
  have h4 := h.2.2.2 (by decide) "web" 3 (by decide) (by decide)
  exact h4.trans (by decide)

/-- Witness for C4: scaling web down to one removes exactly the newest web
row, keeps web.1 and leaves the worker rows untouched. -/
theorem scale_down_removes_newest_w :
    scale ["web", "worker"] [("web", 1)]
        ⟨[⟨"web", 1, CState.up, 1⟩, ⟨"web", 2, CState.up, 1⟩,
          ⟨"worker", 1, CState.up, 1⟩], [1]⟩ =
      Except.ok (⟨[⟨"web", 1, CState.up, 1⟩, ⟨"web", 2, CState.destroyed, 1⟩,
        ⟨"worker", 1, CState.up, 1⟩], [1]⟩, [], [⟨"web", 2, CState.up, 1⟩]) ∧
    typeRows [⟨"web", 2, CState.up, 1⟩] "web" =
      (typeRows [⟨"web", 1, CState.up, 1⟩, ⟨"web", 2, CState.up, 1⟩,
        ⟨"worker", 1, CState.up, 1⟩] "web").drop 1 ∧
    typeRows [⟨"web", 1, CState.up, 1⟩, ⟨"web", 2, CState.destroyed, 1⟩,
        ⟨"worker", 1, CState.up, 1⟩] "worker" =
      typeRows [⟨"web", 1, CState.up, 1⟩, ⟨"web", 2, CState.up, 1⟩,
        ⟨"worker", 1, CState.up, 1⟩] "worker" := by
  have hok : scale ["web", "worker"] [("web", 1)]
      ⟨[⟨"web", 1, CState.up, 1⟩, ⟨"web", 2, CState.up, 1⟩,
        ⟨"worker", 1, CState.up, 1⟩], [1]⟩ =
      Except.ok (⟨[⟨"web", 1, CState.up, 1⟩, ⟨"web", 2, CState.destroyed, 1⟩,
        ⟨"worker", 1, CState.up, 1⟩], [1]⟩, [], [⟨"web", 2, CState.up, 1⟩]) := by
    rfl
  have h := scale_down_removes_newest hok (by decide)
  exact ⟨hok, (h.1 "web" 1 (by decide) (by decide)).1, (h.2 "worker" (by decide)).1⟩

/-- A greedy class run over a block of matching characters stops exactly at
the first non-matching character. -/
theorem takeWhile_append_stop (cls : Char → Bool) :
    ∀ (xs ys : List Char), (∀ c ∈ xs, cls c = true) →
      (∀ c, ys.head? = some c → cls c = false) →
      (xs ++ ys).takeWhile cls = xs := by
  intro xs
  induction xs with
  | nil =>
    intro ys _ hy
    cases ys with
    | nil => rfl
    | cons y t =>
      show List.takeWhile cls (y :: t) = []
      rw [List.takeWhile_cons, hy y rfl]
      simp
  | cons x xs2 ih =>
    intro ys hx hy
    show List.takeWhile cls (x :: (xs2 ++ ys)) = x :: xs2
    rw [List.takeWhile_cons, hx x (List.mem_cons_self x xs2), if_pos rfl,
      ih ys (fun c hc => hx c (List.mem_cons_of_mem x hc)) hy]

/-- On a block of class characters followed by a stopper, the backtracking
engine's first greedy candidate is exactly the block. -/
theorem plusSplits_head (cls : Char → Bool) (xs ys : List Char)
    (hne : xs ≠ []) (hx : ∀ c ∈ xs, cls c = true)
    (hy : ∀ c, ys.head? = some c → cls c = false) :
    ∃ tl, plusSplits cls (xs ++ ys) = (xs, ys) :: tl := by
  have htw : ((xs ++ ys).takeWhile cls) = xs := takeWhile_append_stop cls xs ys hx hy
  obtain ⟨m, hm⟩ : ∃ m, xs.length = m + 1 := by
    cases xs with
    | nil => exact absurd rfl hne
    | cons a l => exact ⟨l.length, rfl⟩
  simp only [plusSplits]
  rw [htw, hm, List.range_succ_eq_map, List.map_cons, Nat.sub_zero, ← hm,
    List.take_left, List.drop_left]
  exact ⟨_, rfl⟩

/-- The final digit group accepts a pure digit block and captures it. -/
theorem matchNum_full (app : List Char) (ver ty : Option (List Char))
    (nstr : List Char) (h1 : nstr ≠ []) (h2 : ∀ c ∈ nstr, isDigChar c = true) :
    matchNum app ver ty nstr = some ⟨app, ver, ty, nstr⟩ := by
  have htw : nstr.takeWhile isDigChar = nstr := by
    have h3 := takeWhile_append_stop isDigChar nstr [] h2
      (fun c hc => Option.noConfusion hc)
    rwa [List.append_nil] at h3
  have hie : nstr.isEmpty = false := by
    cases nstr with
    | nil => exact absurd rfl h1
    | cons a l => rfl
  simp only [matchNum]
  rw [htw, hie]
  simp

/-- The type group consumes the lowercase block, the wildcard dot eats the
separator and the digit group takes the rest. -/
theorem matchType_full (app : List Char) (ver : Option (List Char))
    (ty nstr : List Char)
    (ht1 : ty ≠ []) (ht2 : ∀ c ∈ ty, isLowChar c = true)
    (hn1 : nstr ≠ []) (hn2 : ∀ c ∈ nstr, isDigChar c = true) :
    matchType app ver (ty ++ '.' :: nstr) = some ⟨app, ver, some ty, nstr⟩ := by
  obtain ⟨tl, htl⟩ := plusSplits_head isLowChar ty ('.' :: nstr) ht1 ht2
    (fun c hc => by
      have hcc : '.' = c := Option.some.inj hc
      rw [← hcc]
      decide)
  unfold matchType
  rw [htl, List.map_cons, List.cons_append]
  have hstep : matchAnyDot app ver (some ty) ('.' :: nstr) =
      some ⟨app, ver, some ty, nstr⟩ :=
    matchNum_full app ver (some ty) nstr hn1 hn2
  rw [hstep]
  rfl

/-- The optional escaped dot consumes the separator before the type group. -/
theorem matchDot_full (app : List Char) (ver : Option (List Char))
    (ty nstr : List Char)
    (ht1 : ty ≠ []) (ht2 : ∀ c ∈ ty, isLowChar c = true)
    (hn1 : nstr ≠ []) (hn2 : ∀ c ∈ nstr, isDigChar c = true) :
    matchDot app ver ('.' :: (ty ++ '.' :: nstr)) = some ⟨app, ver, some ty, nstr⟩ := by
  show (if ('.' : Char) = '.' then
      firstSome [matchType app ver (ty ++ '.' :: nstr),
        matchType app ver ('.' :: (ty ++ '.' :: nstr))]
    else matchType app ver ('.' :: (ty ++ '.' :: nstr))) = _
  rw [if_pos rfl, matchType_full app ver ty nstr ht1 ht2 hn1 hn2]
  rfl

/-- The version group consumes the v and its digit block, then hands the
rest to the dot and type stages. -/
theorem matchVer_full (app vstr ty nstr : List Char)
    (hv1 : vstr ≠ []) (hv2 : ∀ c ∈ vstr, isDigChar c = true)
    (ht1 : ty ≠ []) (ht2 : ∀ c ∈ ty, isLowChar c = true)
    (hn1 : nstr ≠ []) (hn2 : ∀ c ∈ nstr, isDigChar c = true) :
    matchVer app ('v' :: (vstr ++ '.' :: (ty ++ '.' :: nstr))) =
      some ⟨app, some ('v' :: vstr), some ty, nstr⟩ := by
  have hbody : matchVerBody app ('v' :: (vstr ++ '.' :: (ty ++ '.' :: nstr))) =
      some ⟨app, some ('v' :: vstr), some ty, nstr⟩ := by
    obtain ⟨tl, htl⟩ := plusSplits_head isDigChar vstr ('.' :: (ty ++ '.' :: nstr))
      hv1 hv2
      (fun c hc => by
        have hcc : '.' = c := Option.some.inj hc
        rw [← hcc]
        decide)
    show (if ('v' : Char) = 'v' then
        firstSome ((plusSplits isDigChar (vstr ++ '.' :: (ty ++ '.' :: nstr))).map
          (fun p => matchDot app (some ('v' :: p.1)) p.2))
      else none) = _
    rw [if_pos rfl, htl, List.map_cons]
    rw [show matchDot app (some ('v' :: vstr)) ('.' :: (ty ++ '.' :: nstr)) =
      some ⟨app, some ('v' :: vstr), some ty, nstr⟩ from
      matchDot_full app (some ('v' :: vstr)) ty nstr ht1 ht2 hn1 hn2]
    rfl
  unfold matchVer
  rw [show matchVerBody app ('v' :: (vstr ++ '.' :: (ty ++ '.' :: nstr))) =
    some ⟨app, some ('v' :: vstr), some ty, nstr⟩ from hbody]
  rfl

/-- The optional underscore consumes the separator after the app group. -/
theorem matchUnderscore_full (app vstr ty nstr : List Char)
    (hv1 : vstr ≠ []) (hv2 : ∀ c ∈ vstr, isDigChar c = true)
    (ht1 : ty ≠ []) (ht2 : ∀ c ∈ ty, isLowChar c = true)
    (hn1 : nstr ≠ []) (hn2 : ∀ c ∈ nstr, isDigChar c = true) :
    matchUnderscore app ('_' :: 'v' :: (vstr ++ '.' :: (ty ++ '.' :: nstr))) =
      some ⟨app, some ('v' :: vstr), some ty, nstr⟩ := by
  show (if ('_' : Char) = '_' then
      firstSome [matchVer app ('v' :: (vstr ++ '.' :: (ty ++ '.' :: nstr))),
        matchVer app ('_' :: 'v' :: (vstr ++ '.' :: (ty ++ '.' :: nstr)))]
    else matchVer app ('_' :: 'v' :: (vstr ++ '.' :: (ty ++ '.' :: nstr)))) = _
  rw [if_pos rfl, matchVer_full app vstr ty nstr hv1 hv2 ht1 ht2 hn1 hn2]
  rfl

/-- Full roundtrip at the character-list level: the MATCH engine run on a
well-formed job identity recovers every component. -/
theorem matchApp_roundtrip (app vstr ty nstr : List Char)
    (ha1 : app ≠ []) (ha2 : ∀ c ∈ app, isAppChar c = true)
    (hv1 : vstr ≠ []) (hv2 : ∀ c ∈ vstr, isDigChar c = true)
    (ht1 : ty ≠ []) (ht2 : ∀ c ∈ ty, isLowChar c = true)
    (hn1 : nstr ≠ []) (hn2 : ∀ c ∈ nstr, isDigChar c = true) :
    matchApp (app ++ '_' :: 'v' :: (vstr ++ '.' :: (ty ++ '.' :: nstr))) =
      some ⟨app, some ('v' :: vstr), some ty, nstr⟩ := by
  obtain ⟨tl, htl⟩ := plusSplits_head isAppChar app
    ('_' :: 'v' :: (vstr ++ '.' :: (ty ++ '.' :: nstr))) ha1 ha2
    (fun c hc => by
      have hcc : '_' = c := Option.some.inj hc
      rw [← hcc]
      decide)
  unfold matchApp
  rw [htl, List.map_cons]
  rw [show matchUnderscore app ('_' :: 'v' :: (vstr ++ '.' :: (ty ++ '.' :: nstr))) =
    some ⟨app, some ('v' :: vstr), some ty, nstr⟩ from
    matchUnderscore_full app vstr ty nstr hv1 hv2 ht1 ht2 hn1 hn2]
  rfl

/-- C9: the job identity of a Container renders as app_vVERSION.type.num and
parsing it back with the scheduler's MATCH grammar recovers app, version,
type and num. -/
theorem job_id_roundtrip (app ty : String) (v n : Nat)
    (ha1 : app.data ≠ []) (ha2 : app.data.all isAppChar = true)
    (ht1 : ty.data ≠ []) (ht2 : ty.data.all isLowChar = true)
    (hv1 : (toString v).data ≠ []) (hv2 : (toString v).data.all isDigChar = true)
    (hn1 : (toString n).data ≠ []) (hn2 : (toString n).data.all isDigChar = true) :
    reMatchJob (getJobId app v ty n) =
      some ⟨app.data, some ('v' :: (toString v).data), some ty.data,
        (toString n).data⟩ := by
  unfold reMatchJob getJobId
  have hdata : (app ++ "_" ++ ("v" ++ toString v) ++ "." ++ ty ++ "." ++ toString n).data =
      app.data ++ '_' :: 'v' :: ((toString v).data ++ '.' ::
        (ty.data ++ '.' :: (toString n).data)) := by
    simp only [String.data_append]
    simp [List.append_assoc, List.singleton_append, List.cons_append]
  rw [hdata]
  exact matchApp_roundtrip app.data (toString v).data ty.data (toString n).data
    ha1 (List.all_eq_true.mp ha2) hv1 (List.all_eq_true.mp hv2)
    ht1 (List.all_eq_true.mp ht2) hn1 (List.all_eq_true.mp hn2)

/-- Witness for C9: myapp at release 3, type web, num 2 renders as
myapp_v3.web.2 and parses back to its components. -/
theorem job_id_roundtrip_w :
    reMatchJob (getJobId "myapp" 3 "web" 2) =
      some ⟨"myapp".data, some ('v' :: (toString 3).data), some "web".data,
        (toString 2).data⟩ :=
  job_id_roundtrip "myapp" "web" 3 2 (by decide) (by decide) (by decide) (by decide)
    (by decide) (by decide) (by decide) (by decide)

end Deis
